/-
Verification of the doc_ai ingestion pipeline against its specification.

This file gives a shallow embedding, in Lean 4, of the core functions of the
repository (PDF chunking, per-page structured extraction merging, LLM retry
gateway, classifier response cleaning, permissive JSON recovery, chunk
persistence, and the multi-document orchestrator), together with theorems
settling the specification's claims about them.

Conventions of the embedding:
- Python `str.split()` (whitespace tokenisation dropping empty tokens) is
  modelled by `splitWords` below, a direct recursion over the characters.
- Python `while` loops are modelled by fuel-indexed recursion returning
  `Option`; `none` means the fuel was exhausted.  For terminating
  configurations we prove a sufficient fuel bound; for the degenerate
  chunker parameters we prove the loop yields `none` at EVERY fuel, which is
  exactly non-termination of the source loop.
- External collaborators (the LLM endpoint, the embedding endpoint, uuid
  generation) are passed in as explicit function arguments, as the spec
  treats them: capabilities with a documented contract.
- Python dicts keyed by page number are modelled as association lists with
  pairwise-distinct keys; iterating `sorted(d.keys())` is modelled by
  sorting the pairs by key.
-/
import Mathlib

namespace DocAI

set_option maxHeartbeats 1000000

/-! ## Word splitting: Python `str.split()` -/

/-- Helper for `splitWords`: walks the characters, accumulating the current
word (in reverse) in `acc`; whitespace flushes the accumulator. -/
def wordsAux : List Char → List Char → List String
  | [], acc => if acc = [] then [] else [String.mk acc.reverse]
  | c :: cs, acc =>
    if c.isWhitespace then
      if acc = [] then wordsAux cs []
      else String.mk acc.reverse :: wordsAux cs []
    else wordsAux cs (c :: acc)

/-- Python `page_text.split()`: split on runs of whitespace, dropping empty
tokens (source: `pdf_chunking.py` line 134). -/
def splitWords (s : String) : List String :=
  wordsAux s.toList []

/-! ## Chunk objects (source: `pdf_chunking.py`, `make_chunk` and the
metadata dict built in `chunk_page_text`) -/

/-- A chunk as built by `make_chunk` plus the metadata dict of
`chunk_page_text`.  The random uuid id is omitted here; identity of chunks
is not the subject of the chunking claims. -/
structure Chunk where
  text : String
  pdf_type : String
  page_number : Nat
  local_chunk_index : Nat
  global_chunk_index : Nat
  deriving Repr, DecidableEq

/-- The chunk built at window start `start`: `" ".join(words[start:end])`
with `end = min(start + chunk_size_words, len(words))`, stripped by
`make_chunk`. -/
def mkChunkAt (words : List String) (pt : String) (pn cs start li gi : Nat) : Chunk :=
  { text := (String.intercalate " " ((words.drop start).take
        (min (start + cs) words.length - start))).trim
    pdf_type := pt
    page_number := pn
    local_chunk_index := li
    global_chunk_index := gi }

/-- The `while start < len(words)` loop of `chunk_page_text`
(source: `pdf_chunking.py` lines 140-166), fuel-indexed.
After emitting a chunk the loop breaks if the window reached the last word,
else slides to `max(0, end - overlap_words)`, which in `Nat` is
`end - overlap_words`. -/
def chunkLoop (words : List String) (pt : String) (pn cs ov : Nat) :
    Nat → Nat → Nat → Nat → Option (List Chunk)
  | 0, _, _, _ => none
  | fuel + 1, start, li, gi =>
    if start < words.length then
      if min (start + cs) words.length = words.length then
        some [mkChunkAt words pt pn cs start li gi]
      else
        (chunkLoop words pt pn cs ov fuel
            (min (start + cs) words.length - ov) (li + 1) (gi + 1)).map
          (mkChunkAt words pt pn cs start li gi :: ·)
    else some []

/-- `chunk_page_text` (source: `pdf_chunking.py` lines 119-166): split into
words, return `[]` on no words, else run the sliding-window loop.  The fuel
`words.length + 1` is proven sufficient for the default parameters. -/
def chunk_page_text (page_text pt : String) (pn cs ov gstart : Nat) :
    Option (List Chunk) :=
  let words := splitWords page_text
  if words = [] then some []
  else chunkLoop words pt pn cs ov (words.length + 1) 0 0 gstart

/-- Per-page loop of `chunk_pdf` (source: `pdf_chunking.py` lines 194-219)
over the already-extracted page contents: pages whose content has no
alphanumeric character are skipped, others are chunked with the running
global index. -/
def chunkPdfGo (pt : String) (cs ov : Nat) :
    List String → Nat → Nat → Option (List Chunk)
  | [], _, _ => some []
  | t :: rest, pageIdx, g =>
    if t.toList.any Char.isAlphanum then
      match chunk_page_text t pt pageIdx cs ov g with
      | none => none
      | some pcs =>
        match chunkPdfGo pt cs ov rest (pageIdx + 1) (g + pcs.length) with
        | none => none
        | some more => some (pcs ++ more)
    else chunkPdfGo pt cs ov rest (pageIdx + 1) g

/-- `chunk_pdf` (source: `pdf_chunking.py` lines 173-222), abstracted over
the list of per-page extracted contents (the pdfplumber read is an external
collaborator); page numbering starts at 1 and the global index at 0. -/
def chunk_pdf (pageTexts : List String) (pt : String) (cs ov : Nat) :
    Option (List Chunk) :=
  chunkPdfGo pt cs ov pageTexts 1 0


/-- One-step unfolding of `chunkLoop` at positive fuel. -/
theorem chunkLoop_succ (words : List String) (pt : String) (pn cs ov f start li gi : Nat) :
    chunkLoop words pt pn cs ov (f + 1) start li gi =
      if start < words.length then
        if min (start + cs) words.length = words.length then
          some [mkChunkAt words pt pn cs start li gi]
        else
          (chunkLoop words pt pn cs ov f
              (min (start + cs) words.length - ov) (li + 1) (gi + 1)).map
            (mkChunkAt words pt pn cs start li gi :: ·)
      else some [] := rfl

/-- Invariant of the sliding-window loop at the default parameters. -/
theorem chunkLoop_spec (words : List String) (pt : String) (pn : Nat) :
    ∀ f start li gi, start < words.length →
      words.length - start ≤ 350 * f + 400 →
      ∃ L, chunkLoop words pt pn 400 50 (f + 1) start li gi = some L ∧
        L.length = (words.length - start - 51) / 350 + 1 ∧
        L.map (·.global_chunk_index) = List.range' gi L.length ∧
        L.map (·.local_chunk_index) = List.range' li L.length ∧
        ∀ c ∈ L, c.page_number = pn := by
  intro f
  induction f with
  | zero =>
    intro start li gi hlt hle
    refine ⟨[mkChunkAt words pt pn 400 start li gi], ?_, ?_, ?_, ?_, ?_⟩
    · have hmin : min (start + 400) words.length = words.length := by omega
      rw [chunkLoop_succ, if_pos hlt, if_pos hmin]
    · have : words.length - start - 51 < 350 := by omega
      simp [Nat.div_eq_of_lt this]
    · simp [mkChunkAt]
    · simp [mkChunkAt]
    · intro c hc
      simp at hc
      subst hc
      rfl
  | succ f ih =>
    intro start li gi hlt hle
    by_cases hend : words.length ≤ start + 400
    · refine ⟨[mkChunkAt words pt pn 400 start li gi], ?_, ?_, ?_, ?_, ?_⟩
      · have hmin : min (start + 400) words.length = words.length := by omega
        rw [chunkLoop_succ, if_pos hlt, if_pos hmin]
      · have : words.length - start - 51 < 350 := by omega
        simp [Nat.div_eq_of_lt this]
      · simp [mkChunkAt]
      · simp [mkChunkAt]
      · intro c hc
        simp at hc
        subst hc
        rfl
    · push_neg at hend
      have hne : ¬ (min (start + 400) words.length = words.length) := by omega
      have harg : min (start + 400) words.length - 50 = start + 350 := by omega
      have hlt' : start + 350 < words.length := by omega
      have hle' : words.length - (start + 350) ≤ 350 * f + 400 := by omega
      obtain ⟨L', hrun, hlen, hglob, hloc, hpage⟩ := ih (start + 350) (li + 1) (gi + 1) hlt' hle'
      refine ⟨mkChunkAt words pt pn 400 start li gi :: L', ?_, ?_, ?_, ?_, ?_⟩
      · rw [chunkLoop_succ, if_pos hlt, if_neg hne, harg, hrun]
        rfl
      · have h350 : words.length - start - 51 = (words.length - (start + 350) - 51) + 350 := by
          omega
        simp only [List.length_cons, hlen, h350, Nat.add_div_right _ (by norm_num : (0:Nat) < 350)]
      · simp only [List.map_cons, hglob, List.length_cons, mkChunkAt]
        rw [List.range'_succ]
      · simp only [List.map_cons, hloc, List.length_cons, mkChunkAt]
        rw [List.range'_succ]
      · intro c hc
        rcases List.mem_cons.mp hc with h | h
        · subst h; rfl
        · exact hpage c h



/-- `chunk_page_text` at the default parameters, for a page with at least
one word: closed-form chunk count and contiguous index runs. -/
theorem chunk_page_text_spec (t pt : String) (pn g : Nat)
    (h : splitWords t ≠ []) :
    ∃ L, chunk_page_text t pt pn 400 50 g = some L ∧
      L.length = ((splitWords t).length - 51) / 350 + 1 ∧
      L.map (·.global_chunk_index) = List.range' g L.length ∧
      L.map (·.local_chunk_index) = List.range' 0 L.length ∧
      ∀ c ∈ L, c.page_number = pn := by
  have hpos : 0 < (splitWords t).length := List.length_pos.mpr h
  have hle : (splitWords t).length - 0 ≤ 350 * (splitWords t).length + 400 := by omega
  obtain ⟨L, hrun, hlen, hglob, hloc, hpage⟩ :=
    chunkLoop_spec (splitWords t) pt pn (splitWords t).length 0 0 g hpos hle
  refine ⟨L, ?_, ?_, hglob, hloc, hpage⟩
  · simp only [chunk_page_text, if_neg h]
    exact hrun
  · simpa using hlen

/-- C1.  For every page text with at least one whitespace-separated word,
`chunk_page_text` with `chunk_size_words = 400` and `overlap_words = 50`
returns exactly `⌈(n - 50) / 350⌉` chunks (written `(n - 50 + 349) / 350`
in natural division) when the word count `n` exceeds 400, and exactly one
chunk otherwise, and the `global_chunk_index` values of the returned chunks
are the contiguous run starting at the caller-supplied
`global_chunk_start_index`. -/
theorem chunk_page_text_count_and_global_run (page_text pt : String) (pn gstart : Nat)
    (h : splitWords page_text ≠ []) :
    ∃ L, chunk_page_text page_text pt pn 400 50 gstart = some L ∧
      L.length = (if 400 < (splitWords page_text).length
        then ((splitWords page_text).length - 50 + 349) / 350 else 1) ∧
      L.map (·.global_chunk_index) = List.range' gstart L.length := by
  obtain ⟨L, hrun, hlen, hglob, _, _⟩ := chunk_page_text_spec page_text pt pn gstart h
  refine ⟨L, hrun, ?_, hglob⟩
  rw [hlen]
  by_cases hn : 400 < (splitWords page_text).length
  · rw [if_pos hn]
    have h1 : (splitWords page_text).length - 50 + 349 =
        ((splitWords page_text).length - 51) + 350 := by omega
    rw [h1, Nat.add_div_right _ (by norm_num : (0:Nat) < 350)]
  · rw [if_neg hn]
    have : (splitWords page_text).length - 51 < 350 := by omega
    simp [Nat.div_eq_of_lt this]

theorem chunk_page_text_count_and_global_run_witness :
    splitWords "alpha beta gamma" ≠ [] ∧
    ∃ L, chunk_page_text "alpha beta gamma" "t" 1 400 50 7 = some L ∧
      L.length = (if 400 < (splitWords "alpha beta gamma").length
        then ((splitWords "alpha beta gamma").length - 50 + 349) / 350 else 1) ∧
      L.map (·.global_chunk_index) = List.range' 7 L.length :=
  ⟨by decide, chunk_page_text_count_and_global_run "alpha beta gamma" "t" 1 7 (by decide)⟩

/-- C2.  At the degenerate parameters `chunk_size_words = 5 =
overlap_words` on a 10-word page the window never advances
(`start = max(0, end - overlap) = start`), so the `while` loop of
`chunk_page_text` diverges: the fuel-indexed embedding of the loop returns
`none` at every fuel, and hence so does `chunk_page_text`.  The code
neither rejects nor clamps the degenerate parameters. -/
theorem chunk_page_text_diverges_on_degenerate_overlap :
    (∀ fuel li gi,
      chunkLoop (splitWords "w w w w w w w w w w") "t" 1 5 5 fuel 0 li gi = none) ∧
    chunk_page_text "w w w w w w w w w w" "t" 1 5 5 0 = none := by
  have hlen : (splitWords "w w w w w w w w w w").length = 10 := by decide
  have main : ∀ fuel li gi,
      chunkLoop (splitWords "w w w w w w w w w w") "t" 1 5 5 fuel 0 li gi = none := by
    intro fuel
    induction fuel with
    | zero => intro li gi; rfl
    | succ f ih =>
      intro li gi
      rw [chunkLoop_succ, hlen]
      norm_num
      simp [ih]
  refine ⟨main, ?_⟩
  have hne : ¬ (splitWords "w w w w w w w w w w" = []) := by decide
  simp only [chunk_page_text, if_neg hne]
  exact main _ 0 0



/-- An alphanumeric character is not whitespace. -/
theorem not_whitespace_of_isAlphanum (c : Char) (h : c.isAlphanum = true) :
    c.isWhitespace = false := by
  by_contra hw
  rw [Bool.not_eq_false] at hw
  simp only [Char.isWhitespace, Bool.or_eq_true, decide_eq_true_eq] at hw
  rcases hw with ((h1 | h1) | h1) | h1 <;> subst h1 <;> exact absurd h (by decide)

/-- `wordsAux` produces at least one word if the remaining characters
contain a non-whitespace character or a word is being accumulated. -/
theorem wordsAux_ne_nil :
    ∀ l acc, ((∃ c ∈ l, c.isWhitespace = false) ∨ acc ≠ []) →
      wordsAux l acc ≠ [] := by
  intro l
  induction l with
  | nil =>
    intro acc h
    rcases h with ⟨c, hc, _⟩ | hacc
    · simp at hc
    · simp [wordsAux, hacc]
  | cons c cs ih =>
    intro acc h
    by_cases hws : c.isWhitespace = true
    · by_cases hacc : acc = []
      · subst hacc
        simp only [wordsAux, hws, if_true, if_pos rfl]
        apply ih
        left
        rcases h with ⟨d, hd, hdws⟩ | hacc'
        · rcases List.mem_cons.mp hd with rfl | hdcs
          · rw [hws] at hdws; exact absurd hdws (by simp)
          · exact ⟨d, hdcs, hdws⟩
        · exact absurd rfl hacc'
      · simp [wordsAux, hws, hacc]
    · rw [Bool.not_eq_true] at hws
      simp only [wordsAux, hws, Bool.false_eq_true, if_false]
      apply ih
      right
      simp

/-- A page text containing an alphanumeric character splits into at least
one word. -/
theorem splitWords_ne_nil_of_alnum (t : String)
    (h : t.toList.any Char.isAlphanum = true) : splitWords t ≠ [] := by
  obtain ⟨c, hc, halnum⟩ := List.any_eq_true.mp h
  exact wordsAux_ne_nil t.toList [] (Or.inl ⟨c, hc, not_whitespace_of_isAlphanum c halnum⟩)

/-- Invariant of the per-page loop of `chunk_pdf` at the default
parameters: the loop terminates, global indices form the contiguous run
starting at the running offset, all page numbers are at least the current
page index, per-page local indices restart at zero, and pages without an
alphanumeric character contribute no chunks. -/
theorem chunkPdfGo_spec (pt : String) :
    ∀ pages pageIdx g,
      ∃ L, chunkPdfGo pt 400 50 pages pageIdx g = some L ∧
        L.map (·.global_chunk_index) = List.range' g L.length ∧
        (∀ c ∈ L, pageIdx ≤ c.page_number) ∧
        (∀ p, ∃ k, (L.filter (fun c => c.page_number == p)).map (·.local_chunk_index)
            = List.range k) ∧
        (∀ i t, pages[i]? = some t → t.toList.any Char.isAlphanum = false →
          L.filter (fun c => c.page_number == pageIdx + i) = []) := by
  intro pages
  induction pages with
  | nil =>
    intro pageIdx g
    refine ⟨[], rfl, by simp, by simp, fun p => ⟨0, by simp⟩, fun i t hi _ => by simp at hi⟩
  | cons t rest ih =>
    intro pageIdx g
    by_cases halnum : t.toList.any Char.isAlphanum = true
    · have hw : splitWords t ≠ [] := splitWords_ne_nil_of_alnum t halnum
      obtain ⟨P, hPrun, _hPlen, hPglob, hPloc, hPpage⟩ :=
        chunk_page_text_spec t pt pageIdx g hw
      obtain ⟨R, hRrun, hRglob, hRlb, hRloc, hRempty⟩ := ih (pageIdx + 1) (g + P.length)
      refine ⟨P ++ R, ?_, ?_, ?_, ?_, ?_⟩
      · simp only [chunkPdfGo, halnum, if_true, hPrun, hRrun]
      · rw [List.map_append, hPglob, hRglob, List.length_append]
        have h := List.range'_append g P.length R.length 1
        simp only [one_mul] at h
        rw [Nat.add_comm P.length R.length]
        exact h
      · intro c hc
        rcases List.mem_append.mp hc with h | h
        · exact le_of_eq (hPpage c h).symm
        · exact le_trans (Nat.le_succ pageIdx) (hRlb c h)
      · intro p
        rw [List.filter_append]
        by_cases hp : p = pageIdx
        · have hPfull : P.filter (fun c => c.page_number == p) = P :=
            List.filter_eq_self.mpr (fun a ha => by simp [hPpage a ha, hp])
          have hRnil : R.filter (fun c => c.page_number == p) = [] :=
            List.filter_eq_nil_iff.mpr (fun a ha => by
              have := hRlb a ha
              simp only [beq_iff_eq]
              omega)
          rw [hPfull, hRnil, List.append_nil]
          exact ⟨P.length, by rw [hPloc, List.range_eq_range']⟩
        · have hPnil : P.filter (fun c => c.page_number == p) = [] :=
            List.filter_eq_nil_iff.mpr (fun a ha => by
              simp only [beq_iff_eq, hPpage a ha]
              exact fun hq => hp hq.symm)
          rw [hPnil, List.nil_append]
          exact hRloc p
      · intro i t' hi hno
        match i with
        | 0 =>
          rw [List.getElem?_cons_zero] at hi
          injection hi with hi
          subst hi
          rw [hno] at halnum
          exact absurd halnum (by simp)
        | i + 1 =>
          rw [List.getElem?_cons_succ] at hi
          rw [List.filter_append]
          have hPnil : P.filter (fun c => c.page_number == pageIdx + (i + 1)) = [] :=
            List.filter_eq_nil_iff.mpr (fun a ha => by
              simp only [beq_iff_eq, hPpage a ha]
              omega)
          have hRnil := hRempty i t' hi hno
          have harith : pageIdx + 1 + i = pageIdx + (i + 1) := by omega
          rw [harith] at hRnil
          rw [hPnil, hRnil, List.nil_append]
    · rw [Bool.not_eq_true] at halnum
      obtain ⟨L, hLrun, hLglob, hLlb, hLloc, hLempty⟩ := ih (pageIdx + 1) g
      refine ⟨L, ?_, hLglob, ?_, hLloc, ?_⟩
      · simp only [chunkPdfGo, halnum, Bool.false_eq_true, if_false, hLrun]
      · exact fun c hc => le_trans (Nat.le_succ pageIdx) (hLlb c hc)
      · intro i t' hi hno
        match i with
        | 0 =>
          exact List.filter_eq_nil_iff.mpr (fun a ha => by
            have := hLlb a ha
            simp only [beq_iff_eq]
            omega)
        | i + 1 =>
          rw [List.getElem?_cons_succ] at hi
          have hRnil := hLempty i t' hi hno
          have harith : pageIdx + 1 + i = pageIdx + (i + 1) := by omega
          rw [harith] at hRnil
          exact hRnil


/-- C3.  For every list of per-page extracted contents, `chunk_pdf` at the
default parameters returns a chunk list whose `global_chunk_index` values
are exactly `0, 1, 2, ...` in order (strictly increasing, starting at 0,
nothing repeated or skipped), whose `local_chunk_index` values restart at 0
on every page, and in which a page with no alphanumeric character
contributes zero chunks. -/
theorem chunk_pdf_index_invariants (pageTexts : List String) (pt : String) :
    ∃ L, chunk_pdf pageTexts pt 400 50 = some L ∧
      L.map (·.global_chunk_index) = List.range L.length ∧
      (∀ p, ∃ k, (L.filter (fun c => c.page_number == p)).map (·.local_chunk_index)
          = List.range k) ∧
      (∀ i t, pageTexts[i]? = some t → t.toList.any Char.isAlphanum = false →
        L.filter (fun c => c.page_number == 1 + i) = []) := by
  obtain ⟨L, hrun, hglob, _, hloc, hempty⟩ := chunkPdfGo_spec pt pageTexts 1 0
  exact ⟨L, hrun, by rw [hglob, List.range_eq_range'], hloc, hempty⟩


/-! ## Merging per-page extraction results (source: `pdf_extractor.py`) -/

/-- The flatten step of `process_single_pdf` (source: `pdf_extractor.py`
lines 292-295): `for pn in sorted(all_results_by_page): structured.extend(...)`.
The dict of per-page results is modelled as an association list with
pairwise-distinct keys; iterating over the sorted keys is modelled as a
stable sort of the pairs by key followed by flattening. -/
def flattenInPageOrder {α : Type} (results : List (Nat × List α)) : List α :=
  ((List.insertionSort (fun a b => a.1 ≤ b.1) results).map Prod.snd).flatten

/-- Sorting pairs by key recovers the unique key-sorted order whenever the
keys are distinct, so the flattened output only depends on the multiset of
per-page results. -/
theorem flattenInPageOrder_eq_of_perm {α : Type} (completed reference : List (Nat × List α))
    (hperm : completed.Perm reference)
    (hsorted : reference.Sorted (fun a b => a.1 < b.1)) :
    flattenInPageOrder completed = (reference.map Prod.snd).flatten := by
  haveI : IsTotal (Nat × List α) (fun a b => a.1 ≤ b.1) :=
    ⟨fun a b => Nat.le_total a.1 b.1⟩
  haveI : IsTrans (Nat × List α) (fun a b => a.1 ≤ b.1) :=
    ⟨fun _ _ _ => Nat.le_trans⟩
  haveI : IsAntisymm (Nat × List α) (fun a b => a.1 < b.1) :=
    ⟨fun _ _ h1 h2 => absurd h2 (Nat.lt_asymm h1)⟩
  have hs1 : (List.insertionSort (fun a b => a.1 ≤ b.1) completed).Sorted
      (fun a b => a.1 ≤ b.1) := List.sorted_insertionSort _ _
  have hperm2 : (List.insertionSort (fun a b => a.1 ≤ b.1) completed).Perm reference :=
    (List.perm_insertionSort _ _).trans hperm
  have hne : reference.Pairwise (fun a b => a.1 ≠ b.1) :=
    hsorted.imp (fun h => Nat.ne_of_lt h)
  have hne2 : (List.insertionSort (fun a b => a.1 ≤ b.1) completed).Pairwise
      (fun a b => a.1 ≠ b.1) := (hperm2.pairwise_iff (fun h => Ne.symm h)).mpr hne
  have hlt : (List.insertionSort (fun a b => a.1 ≤ b.1) completed).Sorted
      (fun a b => a.1 < b.1) :=
    (hs1.and hne2).imp (fun h => Nat.lt_of_le_of_ne h.1 h.2)
  have heq := List.eq_of_perm_of_sorted hperm2 hlt hsorted
  unfold flattenInPageOrder
  rw [heq]

/-- C4.  The flattened `structured_data` merge of `process_single_pdf` is
the concatenation of the per-page result lists in strictly ascending
page-number order, regardless of the order in which the per-page results
were delivered by the worker pool: for any completion order (any
permutation of the per-page results) the merge equals the flatten of the
ascending-order reference. -/
theorem structured_merge_ascending_page_order {α : Type}
    (completed reference : List (Nat × List α))
    (hperm : completed.Perm reference)
    (hsorted : reference.Sorted (fun a b => a.1 < b.1)) :
    flattenInPageOrder completed = (reference.map Prod.snd).flatten :=
  flattenInPageOrder_eq_of_perm completed reference hperm hsorted

theorem structured_merge_ascending_page_order_witness :
    ([((2:Nat), [(10:Nat)]), (1, [1, 2])].Perm [((1:Nat), [(1:Nat), 2]), (2, [10])]) ∧
    ([((1:Nat), [(1:Nat), 2]), (2, [10])].Sorted (fun a b => a.1 < b.1)) ∧
    flattenInPageOrder [((2:Nat), [(10:Nat)]), (1, [1, 2])] = [1, 2, 10] :=
  ⟨by decide, by decide, by
    rw [structured_merge_ascending_page_order
      [((2:Nat), [(10:Nat)]), (1, [1, 2])] [((1:Nat), [(1:Nat), 2]), (2, [10])]
      (by decide) (by decide)]
    rfl⟩



/-- Outcome of `_process_page_with_llm` for one surviving page: the parsed
item list, or the text of the exception raised by the page's LLM call. -/
inductive PageOutcome (α : Type) where
  | ok (items : List α)
  | fail (err : String)
  deriving Repr, DecidableEq

/-- The per-page items contributed to `all_results_by_page`: a failing page
contributes `[]` (the pool's except-branch `setdefault(page_number, [])`). -/
def pageItems {α : Type} : PageOutcome α → List α
  | .ok items => items
  | .fail _ => []

/-- The result-collection phase of `process_single_pdf` (source:
`pdf_extractor.py` lines 250-295), abstracted over the per-page outcomes of
the surviving pages.  With no surviving pages `structured = []`; with
exactly one surviving page the worker runs inline and an exception
propagates (that path has no try/except); with two or more pages each
worker runs inside the pool loop's try/except, a failing page contributing
an empty list, and the merge flattens in ascending page order. -/
def collectPageResults {α : Type} (pages : List (Nat × PageOutcome α)) :
    Except String (List α) :=
  match pages with
  | [] => .ok []
  | [(_, .ok items)] => .ok items
  | [(_, .fail e)] => .error e
  | _ => .ok (flattenInPageOrder (pages.map (fun pr => (pr.1, pageItems pr.2))))

/-- C5 counterexample: when exactly one page survives the filters and its
LLM call raises, `process_single_pdf` propagates the exception instead of
contributing an empty result — the run is fatal, contradicting the claim
that the isolation holds "whether one page or many pages survive". -/
theorem single_surviving_page_failure_is_fatal :
    collectPageResults (α := Nat) [(1, PageOutcome.fail "boom")] = .error "boom" ∧
    collectPageResults (α := Nat) [(1, PageOutcome.fail "boom")] ≠ .ok [] := by
  refine ⟨rfl, fun h => ?_⟩
  simp [collectPageResults] at h

/-- C5 (amended).  When two or more pages survive the filters, an
individual page's LLM failure is caught by the pool loop and contributes an
empty result list, the remaining pages are still processed, the run is not
fatal, and the merged output is the concatenation, in ascending page order,
of each page's contribution (its items on success, nothing on failure). -/
theorem multi_page_failure_isolated {α : Type} (pages : List (Nat × PageOutcome α))
    (h2 : 2 ≤ pages.length)
    (hsorted : pages.Sorted (fun a b => a.1 < b.1)) :
    collectPageResults pages = .ok ((pages.map (fun pr => pageItems pr.2)).flatten) := by
  obtain ⟨p1, p2, rest, rfl⟩ : ∃ p1 p2 rest, pages = p1 :: p2 :: rest := by
    match pages, h2 with
    | p1 :: p2 :: rest, _ => exact ⟨p1, p2, rest, rfl⟩
  obtain ⟨n1, o1⟩ := p1
  have hrun : collectPageResults ((n1, o1) :: p2 :: rest) =
      .ok (flattenInPageOrder (((n1, o1) :: p2 :: rest).map (fun pr => (pr.1, pageItems pr.2)))) := by
    cases o1 <;> rfl
  rw [hrun]
  have hsorted' : (((n1, o1) :: p2 :: rest).map (fun pr => (pr.1, pageItems pr.2))).Sorted
      (fun a b => a.1 < b.1) := by
    rw [List.Sorted, List.pairwise_map]
    exact hsorted
  rw [flattenInPageOrder_eq_of_perm _ _ (List.Perm.refl _) hsorted']
  rw [List.map_map]
  rfl

theorem multi_page_failure_isolated_witness :
    2 ≤ ([((1:Nat), PageOutcome.ok [(10:Nat), 20, 30]), (2, PageOutcome.fail "boom")]).length ∧
    ([((1:Nat), PageOutcome.ok [(10:Nat), 20, 30]), (2, PageOutcome.fail "boom")]).Sorted
      (fun a b => a.1 < b.1) ∧
    collectPageResults [((1:Nat), PageOutcome.ok [(10:Nat), 20, 30]), (2, PageOutcome.fail "boom")]
      = .ok [10, 20, 30] :=
  ⟨by decide, by decide, by
    rw [multi_page_failure_isolated
      [((1:Nat), PageOutcome.ok [(10:Nat), 20, 30]), (2, PageOutcome.fail "boom")]
      (by decide) (by decide)]
    rfl⟩



/-! ## The LLM gateway retry loop (source: `llm_client.py`) -/

/-- Substring test, Python's `needle in haystack`. -/
def hasSubstr (pat : List Char) : List Char → Bool
  | [] => pat.isEmpty
  | c :: cs => pat.isPrefixOf (c :: cs) || hasSubstr pat cs

/-- The transient-error test of `ask_llm` (source: `llm_client.py` lines
56-61): a 429 or 503 marker anywhere in the error text, or a
rate-limit / temporarily phrase in its lowercase form. -/
def isTransientErr (err : String) : Bool :=
  hasSubstr "429".toList err.toList || hasSubstr "503".toList err.toList ||
    hasSubstr "rate limit".toList err.toLower.toList ||
    hasSubstr "temporarily".toList err.toLower.toList

/-- The backoff slept before the next attempt: `min(2 ** attempt, 15)`
(source: `llm_client.py` line 62). -/
def backoffWait (attempt : Nat) : Nat := min (2 ^ attempt) 15

/-- Result of the gateway: the response text, an immediately propagated
error, or the distinct retries-exhausted `RuntimeError`; each constructor
records the backoff sleeps performed, in order. -/
inductive LlmOutcome where
  | ok (text : String) (sleeps : List Nat)
  | fatal (err : String) (sleeps : List Nat)
  | exhausted (sleeps : List Nat)
  deriving Repr, DecidableEq

/-- Prepend a performed sleep to an outcome's sleep log. -/
def LlmOutcome.consSleep (w : Nat) : LlmOutcome → LlmOutcome
  | .ok t s => .ok t (w :: s)
  | .fatal e s => .fatal e (w :: s)
  | .exhausted s => .exhausted (w :: s)

/-- The `for attempt in range(max_retries)` loop of `ask_llm` (source:
`llm_client.py` lines 40-71), abstracted over the OpenAI endpoint as an
oracle mapping the attempt number to a response or an error string.
A transient error sleeps `backoffWait attempt` and retries; any other
error propagates at once; falling off the loop raises the distinct
exhausted `RuntimeError`. -/
def askLlmGo (calls : Nat → Except String String) : Nat → Nat → LlmOutcome
  | _, 0 => .exhausted []
  | attempt, remaining + 1 =>
    match calls attempt with
    | .ok t => .ok t []
    | .error e =>
      if isTransientErr e then
        (askLlmGo calls (attempt + 1) remaining).consSleep (backoffWait attempt)
      else .fatal e []

/-- `ask_llm` (source: `llm_client.py` lines 28-71) with its default
`max_retries = 6`. -/
def ask_llm (calls : Nat → Except String String) (max_retries : Nat) : LlmOutcome :=
  askLlmGo calls 0 max_retries

/-- Prepend a list of performed sleeps. -/
def LlmOutcome.addSleeps (ws : List Nat) (o : LlmOutcome) : LlmOutcome :=
  ws.foldr LlmOutcome.consSleep o

theorem addSleeps_cons (w : Nat) (ws : List Nat) (o : LlmOutcome) :
    LlmOutcome.addSleeps (w :: ws) o = (LlmOutcome.addSleeps ws o).consSleep w := rfl

/-- One-step unfolding of the retry loop at positive remaining attempts. -/
theorem askLlmGo_succ (calls : Nat → Except String String) (a r : Nat) :
    askLlmGo calls a (r + 1) =
      match calls a with
      | .ok t => LlmOutcome.ok t []
      | .error e =>
        if isTransientErr e then
          (askLlmGo calls (a + 1) r).consSleep (backoffWait a)
        else LlmOutcome.fatal e [] := rfl

/-- Advancing the retry loop over `k` consecutive transient failures:
the loop shifts to attempt `a + k` having slept the backoff of every
failed attempt, in order. -/
theorem askLlmGo_steps (calls : Nat → Except String String) :
    ∀ k a r, (∀ j < k, ∃ e, calls (a + j) = .error e ∧ isTransientErr e = true) →
      k ≤ r →
      askLlmGo calls a r =
        LlmOutcome.addSleeps ((List.range' a k).map backoffWait)
          (askLlmGo calls (a + k) (r - k)) := by
  intro k
  induction k with
  | zero => intro a r _ _; simp [LlmOutcome.addSleeps]
  | succ k ih =>
    intro a r htrans hkr
    obtain ⟨r', rfl⟩ : ∃ r', r = r' + 1 := ⟨r - 1, by omega⟩
    obtain ⟨e, he, hetrans⟩ := htrans 0 (by omega)
    rw [Nat.add_zero] at he
    have hstep : askLlmGo calls a (r' + 1) =
        (askLlmGo calls (a + 1) r').consSleep (backoffWait a) := by
      rw [askLlmGo_succ, he]
      dsimp only
      simp [hetrans]
    rw [hstep]
    have htrans' : ∀ j < k, ∃ e, calls (a + 1 + j) = .error e ∧ isTransientErr e = true := by
      intro j hj
      have := htrans (j + 1) (by omega)
      rwa [show a + (j + 1) = a + 1 + j by omega] at this
    have hkr' : k ≤ r' := by omega
    rw [ih (a + 1) r' htrans' hkr']
    rw [List.range'_succ, List.map_cons, addSleeps_cons,
      show a + (k + 1) = a + 1 + k by omega, show r' + 1 - (k + 1) = r' - k by omega]

/-- C6.  `ask_llm` retries only on transient errors (429/503 markers or
rate-limit/temporarily phrases), sleeping `min(2^attempt, 15)` between
attempts — exponentially growing, capped at 15; a non-transient error
propagates immediately after the sleeps already performed; exhausting the
6 attempts on transient errors yields the distinct exhausted outcome,
which differs from every single-call failure outcome; and the backoff is
monotone and capped. -/
theorem ask_llm_retry_contract (calls : Nat → Except String String) (k : Nat)
    (htrans : ∀ j < k, ∃ e, calls j = .error e ∧ isTransientErr e = true) :
    (∀ e, k < 6 → calls k = .error e → isTransientErr e = false →
      ask_llm calls 6 = .fatal e ((List.range k).map backoffWait)) ∧
    (∀ t, k < 6 → calls k = .ok t →
      ask_llm calls 6 = .ok t ((List.range k).map backoffWait)) ∧
    (k = 6 → ask_llm calls 6 = .exhausted ((List.range 6).map backoffWait)) ∧
    (∀ i, backoffWait i ≤ 15 ∧ backoffWait i ≤ backoffWait (i + 1)) ∧
    (∀ e s s', LlmOutcome.exhausted s ≠ LlmOutcome.fatal e s') := by
  have htrans0 : ∀ j < k, ∃ e, calls (0 + j) = .error e ∧ isTransientErr e = true := by
    intro j hj
    simpa using htrans j hj
  have haddok : ∀ t (ws : List Nat), LlmOutcome.addSleeps ws (.ok t []) = .ok t ws := by
    intro t ws
    induction ws with
    | nil => rfl
    | cons w ws ihw => rw [addSleeps_cons, ihw]; rfl
  have haddfatal : ∀ e (ws : List Nat), LlmOutcome.addSleeps ws (.fatal e []) = .fatal e ws := by
    intro e ws
    induction ws with
    | nil => rfl
    | cons w ws ihw => rw [addSleeps_cons, ihw]; rfl
  have haddex : ∀ (ws : List Nat), LlmOutcome.addSleeps ws (.exhausted []) = .exhausted ws := by
    intro ws
    induction ws with
    | nil => rfl
    | cons w ws ihw => rw [addSleeps_cons, ihw]; rfl
  refine ⟨?_, ?_, ?_, ?_, ?_⟩
  · intro e hk hcall hnt
    have hsteps := askLlmGo_steps calls k 0 6 htrans0 (by omega)
    obtain ⟨m, hm⟩ : ∃ m, 6 - k = m + 1 := ⟨6 - k - 1, by omega⟩
    rw [show (0 + k) = k by omega, hm] at hsteps
    have hstop : askLlmGo calls k (m + 1) = .fatal e [] := by
      rw [askLlmGo_succ, hcall]
      dsimp only
      simp [hnt]
    rw [ask_llm, hsteps, hstop, haddfatal, List.range_eq_range']
  · intro t hk hcall
    have hsteps := askLlmGo_steps calls k 0 6 htrans0 (by omega)
    obtain ⟨m, hm⟩ : ∃ m, 6 - k = m + 1 := ⟨6 - k - 1, by omega⟩
    rw [show (0 + k) = k by omega, hm] at hsteps
    have hstop : askLlmGo calls k (m + 1) = .ok t [] := by
      rw [askLlmGo_succ, hcall]
    rw [ask_llm, hsteps, hstop, haddok, List.range_eq_range']
  · intro hk
    subst hk
    have hsteps := askLlmGo_steps calls 6 0 6 htrans0 (by omega)
    rw [show (0 + 6) = 6 by omega] at hsteps
    have hstop : askLlmGo calls 6 (6 - 6) = .exhausted [] := rfl
    rw [ask_llm, hsteps, hstop, haddex, List.range_eq_range']
  · intro i
    constructor
    · exact min_le_right _ _
    · exact min_le_min (Nat.pow_le_pow_right (by norm_num) (Nat.le_succ i)) le_rfl
  · intro e s s' h
    cases h


/-- A concrete oracle: one transient 429 failure, then success. -/
def witnessCalls : Nat → Except String String :=
  fun i => if i = 0 then .error "HTTP 429: too many requests" else .ok "done"

theorem ask_llm_retry_contract_witness :
    (∀ j < 1, ∃ e, witnessCalls j = .error e ∧ isTransientErr e = true) ∧
    ask_llm witnessCalls 6 = .ok "done" ((List.range 1).map backoffWait) := by
  have h : ∀ j < 1, ∃ e, witnessCalls j = .error e ∧ isTransientErr e = true := by
    intro j hj
    interval_cases j
    exact ⟨"HTTP 429: too many requests", rfl, by decide⟩
  exact ⟨h, (ask_llm_retry_contract witnessCalls 1 h).2.1 "done" (by omega) rfl⟩



/-! ## A model of `json.loads` over a small JSON value type, used by the
classifier's `detect_pdf_type` and the extractor's `safe_json_loads`. -/

/-- JSON values (numbers restricted to integers, which covers the
extractor and classifier payloads reasoned about here). -/
inductive JsonVal where
  | null
  | bool (b : Bool)
  | num (n : Int)
  | str (s : String)
  | arr (elems : List JsonVal)
  | obj (fields : List (String × JsonVal))
  deriving Repr

/-- Skip JSON whitespace. -/
def skipWs (l : List Char) : List Char := l.dropWhile Char.isWhitespace

/-- Parse the remainder of a string literal after the opening quote,
decoding the common escapes. -/
def parseStrAux : List Char → Option (List Char × List Char)
  | [] => none
  | '"' :: rest => some ([], rest)
  | '\\' :: c :: rest =>
    match parseStrAux rest with
    | none => none
    | some (s, r) =>
      some ((if c = 'n' then '\n' else if c = 't' then '\t' else c) :: s, r)
  | c :: rest =>
    match parseStrAux rest with
    | none => none
    | some (s, r) => some (c :: s, r)

/-- Decimal value of a digit run. -/
def digitsVal (ds : List Char) : Nat :=
  ds.foldl (fun acc c => acc * 10 + (c.toNat - 48)) 0

mutual

/-- Fuel-indexed recursive-descent JSON value parser. -/
def parseVal : Nat → List Char → Option (JsonVal × List Char)
  | 0, _ => none
  | fuel + 1, l =>
    match skipWs l with
    | 'n' :: 'u' :: 'l' :: 'l' :: r => some (.null, r)
    | 't' :: 'r' :: 'u' :: 'e' :: r => some (.bool true, r)
    | 'f' :: 'a' :: 'l' :: 's' :: 'e' :: r => some (.bool false, r)
    | '"' :: r =>
      (match parseStrAux r with
       | none => none
       | some (cs, r') => some (.str (String.mk cs), r'))
    | '[' :: r =>
      (match skipWs r with
       | ']' :: r' => some (.arr [], r')
       | _ =>
         match parseItems fuel (skipWs r) with
         | none => none
         | some (vs, r') => some (.arr vs, r'))
    | '\x7b' :: r =>
      (match skipWs r with
       | '\x7d' :: r' => some (.obj [], r')
       | _ =>
         match parseFields fuel (skipWs r) with
         | none => none
         | some (fs, r') => some (.obj fs, r'))
    | '-' :: r =>
      if (r.takeWhile Char.isDigit) = [] then none
      else some (.num (-(digitsVal (r.takeWhile Char.isDigit) : Int)),
        r.dropWhile Char.isDigit)
    | c :: r =>
      if c.isDigit then
        some (.num (digitsVal ((c :: r).takeWhile Char.isDigit)),
          (c :: r).dropWhile Char.isDigit)
      else none
    | [] => none

/-- Parse one-or-more comma-separated array items up to the closing
bracket. -/
def parseItems : Nat → List Char → Option (List JsonVal × List Char)
  | 0, _ => none
  | fuel + 1, l =>
    match parseVal fuel l with
    | none => none
    | some (v, r) =>
      match skipWs r with
      | ',' :: r' =>
        (match parseItems fuel r' with
         | none => none
         | some (vs, r'') => some (v :: vs, r''))
      | ']' :: r' => some ([v], r')
      | _ => none

/-- Parse one-or-more comma-separated object fields up to the closing
brace. -/
def parseFields : Nat → List Char → Option (List (String × JsonVal) × List Char)
  | 0, _ => none
  | fuel + 1, l =>
    match skipWs l with
    | '"' :: r =>
      (match parseStrAux r with
       | none => none
       | some (k, r1) =>
         match skipWs r1 with
         | ':' :: r2 =>
           (match parseVal fuel r2 with
            | none => none
            | some (v, r3) =>
              match skipWs r3 with
              | ',' :: r4 =>
                (match parseFields fuel r4 with
                 | none => none
                 | some (fs, r5) => some ((String.mk k, v) :: fs, r5))
              | '\x7d' :: r4 => some ([(String.mk k, v)], r4)
              | _ => none)
         | _ => none)
    | _ => none

end

/-- `json.loads`: parse a complete JSON document; trailing non-whitespace
is a parse error. -/
def jsonParse (s : String) : Option JsonVal :=
  match parseVal (s.length + 1) s.toList with
  | none => none
  | some (v, rest) => if skipWs rest = [] then some v else none



/-! ## Classifier response cleaning (source: `pdf_classifier.py`) -/

/-- Python `s.strip(ch)`: remove every leading and trailing occurrence of
the character `ch`. -/
def stripChar (ch : Char) (s : String) : String :=
  String.mk (((s.toList.dropWhile (· = ch)).reverse.dropWhile (· = ch)).reverse)

/-- Python `s.lstrip()`. -/
def pyLstrip (s : String) : String :=
  String.mk (s.toList.dropWhile Char.isWhitespace)

/-- Python `s.strip()`: remove leading and trailing whitespace. -/
def pyStrip (s : String) : String :=
  String.mk (((s.toList.dropWhile Char.isWhitespace).reverse.dropWhile
    Char.isWhitespace).reverse)

/-- Python `s.replace("json", "")`: delete every (leftmost,
non-overlapping) occurrence of the 4-character pattern `json`. -/
def removeJsonAux : List Char → List Char
  | 'j' :: 's' :: 'o' :: 'n' :: rest => removeJsonAux rest
  | c :: cs => c :: removeJsonAux cs
  | [] => []

/-- The cleaning performed by `detect_pdf_type` (source:
`pdf_classifier.py` lines 113-117): strip whitespace, strip backticks from
both ends, strip whitespace, then `replace("json", "")` — which removes
EVERY occurrence of the substring `json`, not only the fence language tag
— and strip once more. -/
def cleanedClassifierResponse (raw : String) : String :=
  pyStrip (String.mk (removeJsonAux ((pyStrip (stripChar '`' (pyStrip raw))).toList)))

/-- `detect_pdf_type`'s parse step (source: `pdf_classifier.py` lines
111-127): parse the cleaned response; a parse failure raises
(`Except.error` carrying the cleaned text), it is neither retried nor
replaced by a default. -/
def detect_pdf_type (raw : String) : Except String JsonVal :=
  match jsonParse (cleanedClassifierResponse raw) with
  | some v => .ok v
  | none => .error (cleanedClassifierResponse raw)

/-- A classifier response that is perfectly valid JSON whose `reason`
field happens to contain the word `json`. -/
def classifierRawResponse : String :=
  "\x7b\"pdf_type\": \"construction_costing\", \"layout_type\": \"table_pdf\", \"flags\": \x7b\x7d, \"reason\": \"mentions json schema\"\x7d"

/-- What `json.loads` yields on `classifierRawResponse` directly. -/
def classifierObjOriginal : JsonVal :=
  .obj [("pdf_type", .str "construction_costing"), ("layout_type", .str "table_pdf"),
    ("flags", .obj []), ("reason", .str "mentions json schema")]

/-- What `detect_pdf_type` actually returns on it: the `reason` field has
lost its `json` substring. -/
def classifierObjMangled : JsonVal :=
  .obj [("pdf_type", .str "construction_costing"), ("layout_type", .str "table_pdf"),
    ("flags", .obj []), ("reason", .str "mentions  schema")]

/-- C7 counterexample: `detect_pdf_type` does not return the response's
JSON object unchanged — `replace("json", "")` deletes the substring
`json` everywhere, so a `reason` field containing `json` is altered. -/
theorem detect_pdf_type_alters_reason_field :
    jsonParse classifierRawResponse = some classifierObjOriginal ∧
    detect_pdf_type classifierRawResponse = .ok classifierObjMangled ∧
    classifierObjMangled ≠ classifierObjOriginal := by
  refine ⟨rfl, rfl, ?_⟩
  intro h
  simp only [classifierObjMangled, classifierObjOriginal, JsonVal.obj.injEq,
    List.cons.injEq, Prod.mk.injEq, JsonVal.str.injEq, and_true, true_and] at h
  exact absurd h (by decide)

/-- A well-formed fenced classifier response whose body does not contain
`json` outside the language tag. -/
def classifierFencedResponse : String :=
  "```json\n\x7b\"pdf_type\": \"other\", \"layout_type\": \"text_pdf\", \"flags\": \x7b\x7d, \"reason\": \"plain text\"\x7d\n```"

/-- C7 (amended).  `detect_pdf_type` parses the cleaned response text —
the cleaning strips whitespace and backtick fences and deletes every
occurrence of the substring `json` (so a fence's `json` language tag is
removed, but so is any `json` inside field values) — returning the parsed
object on success; if the cleaned text is not valid JSON the parse error
propagates (no retry, no default).  On a fenced response whose body avoids
the substring `json`, the object is recovered unchanged. -/
theorem detect_pdf_type_contract (raw : String) :
    (∀ v, jsonParse (cleanedClassifierResponse raw) = some v →
      detect_pdf_type raw = .ok v) ∧
    (jsonParse (cleanedClassifierResponse raw) = none →
      detect_pdf_type raw = .error (cleanedClassifierResponse raw)) ∧
    detect_pdf_type classifierFencedResponse =
      .ok (.obj [("pdf_type", .str "other"), ("layout_type", .str "text_pdf"),
        ("flags", .obj []), ("reason", .str "plain text")]) := by
  refine ⟨?_, ?_, rfl⟩
  · intro v h
    simp [detect_pdf_type, h]
  · intro h
    simp [detect_pdf_type, h]

theorem detect_pdf_type_contract_witness :
    jsonParse (cleanedClassifierResponse classifierRawResponse) = some classifierObjMangled ∧
    detect_pdf_type classifierRawResponse = .ok classifierObjMangled :=
  ⟨rfl, (detect_pdf_type_contract classifierRawResponse).1 classifierObjMangled rfl⟩



/-! ## Permissive JSON recovery for page responses (source:
`pdf_extractor.py`) -/

/-- The fence-stripping step of `safe_json_loads` (source:
`pdf_extractor.py` lines 124-132): strip whitespace; if the text starts
with a code fence, strip all backticks from both ends and drop a leading
case-insensitive `json` language tag followed by `lstrip()`. -/
def stripFenceAndTag (raw : String) : String :=
  let l := (pyStrip raw).toList
  if ['`', '`', '`'].isPrefixOf l then
    let l' := ((l.dropWhile (· = '`')).reverse.dropWhile (· = '`')).reverse
    if ['j', 's', 'o', 'n'].isPrefixOf (l'.map Char.toLower) then
      String.mk ((l'.drop 4).dropWhile Char.isWhitespace)
    else String.mk l'
  else String.mk l

/-- Index of the last occurrence of `c`, Python `s.rindex`. -/
def lastIdxOf (c : Char) (l : List Char) : Option Nat :=
  match l.reverse.findIdx? (· = c) with
  | none => none
  | some k => some (l.length - 1 - k)

/-- The bracket-slicing recovery of `safe_json_loads` (source:
`pdf_extractor.py` lines 138-146): take the substring from the first `[`
to the last `]` and parse it; if the brackets are missing or the snippet
still fails to parse, return the empty list. -/
def bracketRecover (s : String) : JsonVal :=
  match s.toList.findIdx? (· = '['), lastIdxOf ']' s.toList with
  | some i, some j =>
    (match jsonParse (String.mk ((s.toList.drop i).take (j + 1 - i))) with
     | some v => v
     | none => .arr [])
  | _, _ => .arr []

/-- `safe_json_loads` (source: `pdf_extractor.py` lines 116-146) on a
string response (the dict/list passthrough branch cannot trigger for the
string returned by `ask_llm`): strip fences and language tag, attempt a
direct parse, fall back to bracket slicing, and return the empty list on
total failure instead of raising. -/
def safe_json_loads (raw : String) : JsonVal :=
  match jsonParse (stripFenceAndTag raw) with
  | some v => v
  | none => bracketRecover (stripFenceAndTag raw)

/-- The caller's guard in `_process_page_with_llm` (source:
`pdf_extractor.py` lines 192-196): a non-list top-level parse is
discarded, the page contributing an empty result list. -/
def pageResultsFromRaw (raw : String) : List JsonVal :=
  match safe_json_loads raw with
  | .arr items => items
  | _ => []

/-- C8.  `safe_json_loads` strips code fences and a leading `json`
language tag, then tries a direct parse; on failure it parses the
substring from the first `[` to the last `]`; if that also fails (or a
bracket is absent) it returns the empty list rather than raising; callers
discard a non-list top-level result, contributing an empty page result.
The spec's concrete recovery scenarios hold: a fenced array parses, and
trailing commentary after the closing bracket is sliced away. -/
theorem safe_json_loads_contract (raw : String) :
    (∀ v, jsonParse (stripFenceAndTag raw) = some v → safe_json_loads raw = v) ∧
    (∀ i j v, jsonParse (stripFenceAndTag raw) = none →
      (stripFenceAndTag raw).toList.findIdx? (· = '[') = some i →
      lastIdxOf ']' (stripFenceAndTag raw).toList = some j →
      jsonParse (String.mk (((stripFenceAndTag raw).toList.drop i).take (j + 1 - i)))
        = some v →
      safe_json_loads raw = v) ∧
    (jsonParse (stripFenceAndTag raw) = none →
      bracketRecover (stripFenceAndTag raw) = .arr [] →
      safe_json_loads raw = .arr []) ∧
    (∀ items, safe_json_loads raw = .arr items → pageResultsFromRaw raw = items) ∧
    ((∀ items, safe_json_loads raw ≠ .arr items) → pageResultsFromRaw raw = []) ∧
    safe_json_loads "```json\n[\x7b\"a\": 1\x7d]\n```" = .arr [.obj [("a", .num 1)]] ∧
    safe_json_loads "[1, 2] Hope this helps!" = .arr [.num 1, .num 2] ∧
    safe_json_loads "no brackets at all" = .arr [] := by
  refine ⟨?_, ?_, ?_, ?_, ?_, rfl, rfl, rfl⟩
  · intro v h
    simp [safe_json_loads, h]
  · intro i j v hnone hi hj hsnip
    simp only [safe_json_loads, hnone, bracketRecover, hi, hj, hsnip]
  · intro hnone hrec
    simp [safe_json_loads, hnone, hrec]
  · intro items h
    simp [pageResultsFromRaw, h]
  · intro h
    unfold pageResultsFromRaw
    cases hv : safe_json_loads raw with
    | arr items => exact absurd hv (h items)
    | null => rfl
    | bool b => rfl
    | num n => rfl
    | str s => rfl
    | obj fields => rfl

theorem safe_json_loads_contract_witness :
    jsonParse (stripFenceAndTag "[1, 2] Hope this helps!") = none ∧
    safe_json_loads "[1, 2] Hope this helps!" = .arr [.num 1, .num 2] ∧
    pageResultsFromRaw "[1, 2] Hope this helps!" = [.num 1, .num 2] :=
  ⟨rfl, rfl, (safe_json_loads_contract "[1, 2] Hope this helps!").2.2.2.1
    [.num 1, .num 2] rfl⟩



/-! ## Chunk persistence (source: `dlt_pipeline.py`,
`store_chunks_in_chroma_with_doc_id`) -/

/-- A chunk dict as received by the persistence loader: each of the keys
`id`, `text`, `metadata` may be absent. -/
structure RawChunk where
  id : Option String
  text : Option String
  metadata : Option (List (String × String))
  deriving Repr, DecidableEq

/-- Python dict assignment `m[k] = v` on an association list. -/
def setKey (k v : String) : List (String × String) → List (String × String)
  | [] => [(k, v)]
  | (k', v') :: rest => if k' = k then (k, v) :: rest else (k', v') :: setKey k v rest

/-- A chunk after the normalisation loop of
`store_chunks_in_chroma_with_doc_id` (source: `dlt_pipeline.py` lines
163-176). -/
structure CleanChunk where
  id : String
  text : String
  metadata : List (String × String)
  deriving Repr, DecidableEq

/-- The per-chunk normalisation (source: `dlt_pipeline.py` lines 164-170):
generate an id when absent (the uuid supply is modelled as an indexed
oracle `genId`), default a missing/non-dict metadata to the empty dict,
and stamp `metadata["document_id"]`. -/
def resolveChunk (genId : Nat → String) (document_id : String) (idx : Nat)
    (c : RawChunk) : CleanChunk :=
  { id := c.id.getD (genId idx)
    text := c.text.getD ""
    metadata := setKey "document_id" document_id (c.metadata.getD []) }

/-- The text guard (source: `dlt_pipeline.py` line 172): a chunk survives
only if `text` is present and non-empty after stripping. -/
def chunkTextValid (c : RawChunk) : Bool :=
  match c.text with
  | some t => !(pyStrip t == "")
  | none => false

/-- The `cleaned` list built by the normalisation loop: valid chunks,
normalised, in order. -/
def cleanedChunks (genId : Nat → String) (document_id : String)
    (chunks : List RawChunk) : List CleanChunk :=
  chunks.enum.filterMap (fun p =>
    if chunkTextValid p.2 then some (resolveChunk genId document_id p.1 p.2) else none)

/-- The argument record of the final `collection.add(...)` call. -/
structure ChromaAdd (V : Type) where
  ids : List String
  embeddings : List V
  documents : List String
  metadatas : List (List (String × String))
  deriving Repr, DecidableEq

/-- `store_chunks_in_chroma_with_doc_id` (source: `dlt_pipeline.py` lines
155-196), abstracted over the embedding endpoint `embed` and the uuid
supply.  The first component records the argument of every `embed_fn`
call made; the second is the `collection.add` payload (`none` when no
valid chunk remained and the function returned early).  The source makes
ONE `embed_fn(texts)` call over all surviving texts (line 186); the
`v.values` unwrapping is the identity for plain vectors. -/
def store_chunks_in_chroma_with_doc_id {V : Type} (embed : List String → List V)
    (genId : Nat → String) (chunks : List RawChunk) (document_id : String) :
    List (List String) × Option (ChromaAdd V) :=
  let cleaned := cleanedChunks genId document_id chunks
  if cleaned = [] then ([], none)
  else
    ([cleaned.map (·.text)],
      some { ids := cleaned.map (·.id)
             embeddings := embed (cleaned.map (·.text))
             documents := cleaned.map (·.text)
             metadatas := cleaned.map (·.metadata) })

/-- `dict.__setitem__` followed by lookup finds the new value. -/
theorem lookup_setKey (k v : String) : ∀ m, (setKey k v m).lookup k = some v := by
  intro m
  induction m with
  | nil => simp [setKey, List.lookup]
  | cons kv rest ih =>
    obtain ⟨k', v'⟩ := kv
    by_cases hk : k' = k
    · simp [setKey, hk, List.lookup]
    · simp only [setKey, if_neg hk, List.lookup_cons]
      have : (k == k') = false := by
        simp only [beq_eq_false_iff_ne, ne_eq]
        exact fun h => hk h.symm
      rw [this]
      exact ih

/-- C9 counterexample: with 65 valid chunks the persistence function makes
a single embedding call carrying all 65 texts — not batches of at most 64.
(The batch-64 helper `store_chunks_in_chroma` in `pdf_embedding.py` is a
separate function, not called on this path, and performs none of the
id/text/metadata normalisation.) -/
theorem store_chunks_single_embedding_call_of_65 :
    ((store_chunks_in_chroma_with_doc_id (V := Unit) (fun ts => ts.map (fun _ => ()))
        (fun _ => "generated")
        (List.replicate 65 ⟨some "c", some "hello", some []⟩) "doc").1.map
      List.length = [65]) ∧ 64 < 65 :=
  ⟨rfl, by omega⟩

/-- C9 (amended).  During chunk persistence every chunk lacking an id is
assigned a generated one, every chunk whose text is missing or empty after
trimming is dropped rather than stored, every stored chunk's metadata
carries the new document id, and id/embedding/text/metadata are written to
the vector store — but the embeddings are computed by a SINGLE embedding
call over all surviving texts (the 64-batching lives only in the separate,
uncalled `store_chunks_in_chroma` helper). -/
theorem store_chunks_contract {V : Type} (embed : List String → List V)
    (genId : Nat → String) (chunks : List RawChunk) (document_id : String) :
    (cleanedChunks genId document_id chunks ≠ [] →
      store_chunks_in_chroma_with_doc_id embed genId chunks document_id =
        ([(cleanedChunks genId document_id chunks).map (·.text)],
          some { ids := (cleanedChunks genId document_id chunks).map (·.id)
                 embeddings := embed ((cleanedChunks genId document_id chunks).map (·.text))
                 documents := (cleanedChunks genId document_id chunks).map (·.text)
                 metadatas := (cleanedChunks genId document_id chunks).map (·.metadata) })) ∧
    (cleanedChunks genId document_id chunks = [] →
      store_chunks_in_chroma_with_doc_id embed genId chunks document_id = ([], none)) ∧
    (∀ c ∈ cleanedChunks genId document_id chunks,
      c.metadata.lookup "document_id" = some document_id) ∧
    (∀ c ∈ cleanedChunks genId document_id chunks, ¬ (pyStrip c.text = "")) ∧
    (∀ i c, chunks[i]? = some c → chunkTextValid c = true →
      ∃ cc ∈ cleanedChunks genId document_id chunks,
        cc.id = c.id.getD (genId i) ∧ cc.text = c.text.getD "") := by
  refine ⟨?_, ?_, ?_, ?_, ?_⟩
  · intro hne
    simp [store_chunks_in_chroma_with_doc_id, hne]
  · intro hnil
    simp [store_chunks_in_chroma_with_doc_id, hnil]
  · intro c hc
    obtain ⟨⟨i, rc⟩, _, hres⟩ := List.mem_filterMap.mp hc
    by_cases hv : chunkTextValid rc = true
    · rw [if_pos hv] at hres
      injection hres with hres
      rw [← hres]
      exact lookup_setKey _ _ _
    · rw [if_neg hv] at hres
      exact absurd hres (by simp)
  · intro c hc
    obtain ⟨⟨i, rc⟩, _, hres⟩ := List.mem_filterMap.mp hc
    by_cases hv : chunkTextValid rc = true
    · rw [if_pos hv] at hres
      injection hres with hres
      rw [← hres]
      simp only [resolveChunk]
      unfold chunkTextValid at hv
      match htext : rc.text with
      | some t =>
        rw [htext] at hv
        simp only [Bool.not_eq_true', beq_eq_false_iff_ne, ne_eq] at hv
        simpa [htext] using hv
      | none => rw [htext] at hv; exact absurd hv (by simp)
    · rw [if_neg hv] at hres
      exact absurd hres (by simp)
  · intro i c hi hv
    refine ⟨resolveChunk genId document_id i c, ?_, rfl, rfl⟩
    apply List.mem_filterMap.mpr
    refine ⟨(i, c), ?_, by rw [if_pos hv]⟩
    have henum : chunks.enum[i]? = some (i, c) := by
      rw [List.getElem?_enum, hi]
      rfl
    exact List.getElem?_mem henum

theorem store_chunks_contract_witness :
    (cleanedChunks (fun _ => "generated") "doc"
      [⟨none, some " hi ", none⟩, ⟨some "keep", some "  ", some [("k", "v")]⟩] ≠ []) ∧
    store_chunks_in_chroma_with_doc_id (V := Unit) (fun ts => ts.map (fun _ => ()))
        (fun _ => "generated")
        [⟨none, some " hi ", none⟩, ⟨some "keep", some "  ", some [("k", "v")]⟩] "doc" =
      ([[" hi "]],
        some { ids := ["generated"], embeddings := [()], documents := [" hi "]
               metadatas := [[("document_id", "doc")]] }) := by
  constructor
  · intro h
    exact absurd h (by decide)
  · rw [(store_chunks_contract (V := Unit) (fun ts => ts.map (fun _ => ()))
      (fun _ => "generated")
      [⟨none, some " hi ", none⟩, ⟨some "keep", some "  ", some [("k", "v")]⟩] "doc").1
      (by decide)]
    rfl



/-! ## Multi-document orchestrator (source: `pdf_extractor.py`,
`process_many_pdfs`) -/

/-- The sequential classification stage (source: `pdf_extractor.py` lines
315-319): `detect_pdf_type` is called for every path BEFORE any pool is
created, with no try/except — its exception propagates out of
`process_many_pdfs`. -/
def classifyStage {Cls : Type} (classify : String → Except String Cls) :
    List String → Except String (List (String × Cls))
  | [] => .ok []
  | p :: rest =>
    match classify p with
    | .error e => .error e
    | .ok c =>
      match classifyStage classify rest with
      | .error e => .error e
      | .ok jobs => .ok ((p, c) :: jobs)

/-- `process_many_pdfs` (source: `pdf_extractor.py` lines 308-347),
abstracted over the classifier and the per-document extractor.  After the
sequential classification stage: a single job runs inline (its exception
propagates); two or more jobs run in the pool whose loop catches a failed
future, logs it and omits it from `results`.  The pool's `as_completed`
delivery order is nondeterministic; the model returns the submission
order, which the claim (membership and exclusion, not order) does not
depend on. -/
def process_many_pdfs {Cls Doc : Type} (classify : String → Except String Cls)
    (processDoc : String → Cls → Except String Doc) (paths : List String) :
    Except String (List Doc) :=
  match classifyStage classify paths with
  | .error e => .error e
  | .ok jobs =>
    match jobs with
    | [(p, c)] =>
      (match processDoc p c with
       | .ok d => .ok [d]
       | .error e => .error e)
    | _ => .ok (jobs.filterMap (fun pc => (processDoc pc.1 pc.2).toOption))

/-- A classifier that fails on path `"a"`. -/
def classifyFailsOnA : String → Except String Unit :=
  fun p => if p = "a" then .error "classify boom" else .ok ()

/-- C10 counterexample: in the 2-document batch `["a", "b"]` where
document `a`'s classification raises, `process_many_pdfs` raises instead
of excluding `a` and returning document `b`'s result — the classification
stage runs sequentially outside any try/except, so a failure there aborts
the whole batch. -/
theorem classification_failure_aborts_batch :
    process_many_pdfs classifyFailsOnA (fun p _ => .ok p) ["a", "b"]
      = .error "classify boom" ∧
    process_many_pdfs classifyFailsOnA (fun p _ => .ok p) ["a", "b"] ≠ .ok ["b"] := by
  refine ⟨rfl, fun h => ?_⟩
  rw [show process_many_pdfs classifyFailsOnA (fun p _ => .ok p) ["a", "b"]
      = .error "classify boom" from rfl] at h
  exact absurd h (by simp)

/-- The classification stage succeeds pointwise. -/
theorem classifyStage_ok {Cls : Type} (classify : String → Except String Cls)
    (cls : String → Cls) :
    ∀ paths, (∀ p ∈ paths, classify p = .ok (cls p)) →
      classifyStage classify paths = .ok (paths.map (fun p => (p, cls p))) := by
  intro paths
  induction paths with
  | nil => intro _; rfl
  | cons p rest ih =>
    intro h
    have hp : classify p = .ok (cls p) := h p (by simp)
    have hrest := ih (fun q hq => h q (List.mem_cons_of_mem p hq))
    simp only [classifyStage, hp, hrest, List.map_cons]

/-- C10 (amended).  In a batch of two or more documents whose
classifications all succeed, a failure of any document's extraction stage
is caught by the pool loop and that document is excluded from the result
sequence, while the remaining documents are still processed and returned;
a classification-stage failure, or the failure of the single document of a
one-document batch, instead propagates. -/
theorem extraction_failure_isolated {Cls Doc : Type}
    (classify : String → Except String Cls) (cls : String → Cls)
    (processDoc : String → Cls → Except String Doc) (paths : List String)
    (hcls : ∀ p ∈ paths, classify p = .ok (cls p))
    (h2 : 2 ≤ paths.length) :
    process_many_pdfs classify processDoc paths =
      .ok (paths.filterMap (fun p => (processDoc p (cls p)).toOption)) := by
  obtain ⟨p1, p2, rest, rfl⟩ : ∃ p1 p2 rest, paths = p1 :: p2 :: rest := by
    match paths, h2 with
    | p1 :: p2 :: rest, _ => exact ⟨p1, p2, rest, rfl⟩
  have hstage := classifyStage_ok classify cls (p1 :: p2 :: rest) hcls
  have hrun : process_many_pdfs classify processDoc (p1 :: p2 :: rest) =
      .ok (((p1 :: p2 :: rest).map (fun p => (p, cls p))).filterMap
        (fun pc => (processDoc pc.1 pc.2).toOption)) := by
    simp only [process_many_pdfs, hstage, List.map_cons]
  rw [hrun, List.filterMap_map]
  rfl

theorem extraction_failure_isolated_witness :
    (∀ p ∈ ["x", "y"], (Except.ok p : Except String String) = .ok p) ∧
    2 ≤ (["x", "y"] : List String).length ∧
    process_many_pdfs (fun p => (.ok p : Except String String))
        (fun p _ => if p = "x" then .error "boom" else .ok p) ["x", "y"]
      = .ok ["y"] := by
  refine ⟨fun p _ => rfl, by decide, ?_⟩
  rw [extraction_failure_isolated (fun p => (.ok p : Except String String)) (fun p => p)
    (fun p _ => if p = "x" then .error "boom" else .ok p) ["x", "y"]
    (fun p _ => rfl) (by decide)]
  rfl


end DocAI
